import Mathlib

/-!
Shallow embedding of `src/lib/icinga/checkable-dependency.cpp` (Icinga 2):
the dependency store, `Checkable::IsReachable`, `Checkable::GetParents`,
`Checkable::GetChildren`, `Checkable::GetAllChildren` and
`Checkable::GetAllChildrenCount`.

Modelling conventions:
* A `Checkable` is identified by a natural-number `id` (standing for the
  object's address); pointer identity is identity of `id`s resolved through a
  `World` (the set of live objects).
* A `Dependency` edge records its endpoints by id, its redundancy-group key and
  its per-`DependencyType` availability (`Dependency::IsAvailable` is defined
  outside the translated file, so its verdict per type is carried as data).
* `std::set` snapshots are lists; all uses below are either order-insensitive
  or quantify over permutations where the claim demands it.
* The out-parameter `Dependency::Ptr *failedDependency` is threaded explicitly:
  `isReachableAux` takes the current content of `*failedDependency` and returns
  the pair (boolean result, content of `*failedDependency` on return).  The
  depth-guard branch returns the content untouched, exactly as the C++ code
  does not write through the pointer there.
* Recursion depth: the C++ code guards `rstack > l_MaxDependencyRecursionLevel`
  and recurses with `rstack + 1`; we recurse structurally on the fuel
  `l_MaxDependencyRecursionLevel + 1 - rstack`, which is zero exactly when the
  guard fires.
-/

/-- The constant `l_MaxDependencyRecursionLevel` from checkable-dependency.cpp (256). -/
def l_MaxDependencyRecursionLevel : Nat := 256

/-- The `DependencyType` enumeration (icinga/dependency.hpp). -/
inductive DependencyType where
  | DependencyState
  | DependencyNotification
  | DependencyCheckExecution
deriving DecidableEq, Repr

export DependencyType (DependencyState DependencyNotification DependencyCheckExecution)

/-- Host states (only `HostUp` is distinguished by the translated code). -/
inductive HostState where
  | HostUp
  | HostDown
deriving DecidableEq, Repr

export HostState (HostUp HostDown)

/-- State types (`StateTypeSoft` / `StateTypeHard`). -/
inductive StateType where
  | StateTypeSoft
  | StateTypeHard
deriving DecidableEq, Repr

export StateType (StateTypeSoft StateTypeHard)

/-- A dependency edge.  `parent`/`child` are checkable ids (`none` models a
null `Checkable::Ptr` endpoint).  The three `avail*` fields record the verdict
of `Dependency::IsAvailable` for each `DependencyType`. -/
structure Dependency where
  depId : Nat
  parent : Option Nat
  child : Option Nat
  redundancyGroup : String
  availState : Bool
  availNotification : Bool
  availCheckExecution : Bool
deriving DecidableEq, Repr

/-- The verdict of `Dependency::IsAvailable(dt)`, as recorded data. -/
def Dependency.IsAvailable (d : Dependency) : DependencyType → Bool
  | DependencyState => d.availState
  | DependencyNotification => d.availNotification
  | DependencyCheckExecution => d.availCheckExecution

/-- A checkable (host or service).  `isService` is the `dynamic_cast<const
Service *>` test; `host` is `Service::GetHost()` by id; `state`/`stateType`
are the current state as read by the host gate.  `dependencies` and
`reverseDependencies` are the two edge sets (list snapshots). -/
structure Checkable where
  id : Nat
  isService : Bool
  host : Option Nat
  state : HostState
  stateType : StateType
  dependencies : List Dependency
  reverseDependencies : List Dependency
deriving DecidableEq, Repr

/-- The set of live checkable objects; id lookup models pointer dereference. -/
structure World where
  checkables : List Checkable

/-- Resolve a checkable id to the live object. -/
def World.find (w : World) (i : Nat) : Option Checkable :=
  w.checkables.find? (fun c => c.id == i)

/-- Model of `Checkable::GetParents`: distinct parent endpoints of the outgoing edges,
excluding the checkable itself, resolved through the world. -/
def Checkable.getParents (w : World) (c : Checkable) : List Checkable :=
  (((c.dependencies.filterMap (fun d => d.parent)).filter
      (fun p => p ≠ c.id)).dedup).filterMap w.find

/-- Model of `Checkable::GetChildren`: distinct child endpoints of the incoming edges,
excluding the checkable itself, resolved through the world. -/
def Checkable.getChildren (w : World) (c : Checkable) : List Checkable :=
  (((c.reverseDependencies.filterMap (fun d => d.child)).filter
      (fun p => p ≠ c.id)).dedup).filterMap w.find

/-- The implicit host gate of `IsReachable` (lines 68–79): this checkable is a
service, the query is state- or notification-relevant, it has a host, and the
host is in a hard non-up state. -/
def hostBlocked (w : World) (dt : DependencyType) (c : Checkable) : Bool :=
  c.isService &&
    (dt == DependencyState || dt == DependencyNotification) &&
    (match c.host.bind w.find with
     | some h => h.state != HostUp && h.stateType == StateTypeHard
     | none => false)

/-- Model of `std::unordered_map::insert`: adds the binding only when the key is absent
(never overwrites). -/
def mapInsert (m : List (String × Option Dependency)) (k : String)
    (v : Option Dependency) : List (String × Option Dependency) :=
  if m.any (fun kv => kv.1 == k) then m else m ++ [(k, v)]

/-- Model of `violated[group] = nullptr`: an `operator[]` assignment (overwrites or adds). -/
def mapSet (m : List (String × Option Dependency)) (k : String) :
    List (String × Option Dependency) :=
  if m.any (fun kv => kv.1 == k) then
    m.map (fun kv => if kv.1 == k then (kv.1, none) else kv)
  else m ++ [(k, none)]

/-- The direct-dependency loop of `IsReachable` (lines 85–122): iterate the
outgoing edges updating the `violated` map, returning early on an unavailable
non-redundant edge; afterwards scan the map for a still-failing group.  The
returned pair is (boolean result, final content of `*failedDependency`). -/
def checkDeps (dt : DependencyType) :
    List Dependency → List (String × Option Dependency) → Bool × Option Dependency
  | [], m =>
    match m.find? (fun kv => kv.2.isSome) with
    | some kv => (false, kv.2)
    | none => (true, none)
  | d :: rest, m =>
    if d.IsAvailable dt then
      if d.redundancyGroup = "" then checkDeps dt rest m
      else checkDeps dt rest (mapSet m d.redundancyGroup)
    else
      if d.redundancyGroup = "" then (false, some d)
      else checkDeps dt rest (mapInsert m d.redundancyGroup (some d))

/-- Short-circuiting conjunction over the parents (lines 63–66), threading the
content of `*failedDependency` through the recursive calls. -/
def goParents (f : Checkable → Option Dependency → Bool × Option Dependency) :
    List Checkable → Option Dependency → Bool × Option Dependency
  | [], co => (true, co)
  | p :: rest, co =>
    match f p co with
    | (true, co') => goParents f rest co'
    | r => r

/-- Model of `Checkable::IsReachable(dt, failedDependency, rstack)` with
`fuel = l_MaxDependencyRecursionLevel + 1 - rstack`; `co` is the content of
`*failedDependency` on entry, and the second component of the result is its
content on return. -/
def isReachableAux (w : World) (dt : DependencyType) :
    Nat → Checkable → Option Dependency → Bool × Option Dependency
  | 0, _, co => (false, co)
  | fuel + 1, c, co =>
    match goParents (fun p co2 => isReachableAux w dt fuel p co2)
        (Checkable.getParents w c) co with
    | (true, _) =>
      if hostBlocked w dt c then (false, none)
      else checkDeps dt c.dependencies []
    | (false, co') => (false, co')

/-- The function `IsReachable` called with an explicit `rstack` and a freshly
null-initialised `failedDependency` slot. -/
def Checkable.isReachableFrom (w : World) (dt : DependencyType) (c : Checkable)
    (rstack : Nat) : Bool × Option Dependency :=
  isReachableAux w dt (l_MaxDependencyRecursionLevel + 1 - rstack) c none

/-- The public `IsReachable(dt, failedDependency)` entry point (`rstack = 0`,
`*failedDependency` null-initialised by the caller). -/
def Checkable.IsReachable (w : World) (dt : DependencyType) (c : Checkable) :
    Bool × Option Dependency :=
  isReachableAux w dt (l_MaxDependencyRecursionLevel + 1) c none

/-- Model of `Checkable::GetChildren()` as the `std::set` it returns. -/
def Checkable.getChildrenF (w : World) (c : Checkable) : Finset Checkable :=
  (c.getChildren w).toFinset

/-- Model of `Checkable::GetAllChildrenInternal(children, level)` (lines 187–209), with
`fuel = l_MaxDependencyRecursionLevel + 1 - level`: returns the grown
`children` set.  Each member contributes the recursively expanded set of its
own children (when it has any) and, at levels other than 0, itself; since all
contributions are merged with set union, the `std::set` iteration order is
irrelevant and the loop is a `biUnion`. -/
def getAllChildrenInternal (w : World) :
    Nat → Nat → Finset Checkable → Finset Checkable
  | 0, _, children => children
  | fuel + 1, level, children =>
    children ∪ children.biUnion (fun ck =>
      (if (ck.getChildrenF w).Nonempty then
          getAllChildrenInternal w fuel (level + 1) (ck.getChildrenF w)
        else ∅) ∪
      (if level ≠ 0 then {ck} else ∅))

/-- Model of `Checkable::GetAllChildren()` (lines 169–176). -/
def Checkable.GetAllChildren (w : World) (c : Checkable) : Finset Checkable :=
  getAllChildrenInternal w (l_MaxDependencyRecursionLevel + 1) 0
    (c.getChildrenF w)

/-- Model of `Checkable::GetAllChildrenCount()` (lines 161–167): literally
`GetAllChildren().size()`. -/
def Checkable.GetAllChildrenCount (w : World) (c : Checkable) : Nat :=
  (c.GetAllChildren w).card

/-- The `violated` map never holds an empty redundancy-group key. -/
def noEmptyKey (m : List (String × Option Dependency)) : Prop :=
  ∀ kv ∈ m, kv.1 ≠ ""

/-!  ### The final `violated` map

When no unavailable non-redundant edge aborts the loop, `checkDeps` is the
group-verdict scan of the map produced by processing every edge.  `finalMap`
computes that map (its unavailable/empty-group branch is irrelevant under that
hypothesis and simply skips the edge).  -/

def finalMap (dt : DependencyType) :
    List Dependency → List (String × Option Dependency) →
      List (String × Option Dependency)
  | [], m => m
  | d :: rest, m =>
    if d.IsAvailable dt then
      if d.redundancyGroup = "" then finalMap dt rest m
      else finalMap dt rest (mapSet m d.redundancyGroup)
    else
      if d.redundancyGroup = "" then finalMap dt rest m
      else finalMap dt rest (mapInsert m d.redundancyGroup (some d))

/-- An occurring redundancy group: a nonempty key carried by some edge. -/
def groupOccurs (deps : List Dependency) (g : String) : Prop :=
  g ≠ "" ∧ ∃ d ∈ deps, d.redundancyGroup = g

/-- A redundancy group with at least one available member edge. -/
def groupSatisfied (dt : DependencyType) (deps : List Dependency) (g : String) :
    Prop :=
  ∃ d ∈ deps, d.redundancyGroup = g ∧ d.IsAvailable dt = true

/-!  ### Witness configurations  -/

/-- A lone checkable with no edges. -/
def soloC : Checkable := ⟨0, false, none, HostUp, StateTypeHard, [], []⟩

/-- World of the lone checkable. -/
def soloW : World := ⟨[soloC]⟩

/-- An unavailable non-redundant edge (null parent endpoint). -/
def nrD : Dependency := ⟨0, none, some 0, "", false, false, false⟩

/-- A checkable with a single unavailable non-redundant edge. -/
def nrC : Checkable := ⟨0, false, none, HostUp, StateTypeHard, [nrD], []⟩

/-- World of `nrC`. -/
def nrW : World := ⟨[nrC]⟩

/-- A host in a hard Down state. -/
def gateH : Checkable := ⟨5, false, none, HostDown, StateTypeHard, [], []⟩

/-- A service on `gateH` with no configured dependencies. -/
def gateS : Checkable := ⟨6, true, some 5, HostUp, StateTypeHard, [], []⟩

/-- World of the host-gate scenario. -/
def gateW : World := ⟨[gateH, gateS]⟩

/-!  ### The C4 configuration: ancestor failure with a propagated edge

`cexA` depends on `cexB` (available edge `cexAB`); `cexB` has an unavailable
non-redundant edge `cexE` to `cexC`; `cexC` is reachable.  The recursive call
on the parent `cexB` fails and writes `cexE` through `failedDependency`, so
the top-level result for `cexA` carries `some cexE`, not `none`. -/

/-- Unavailable non-redundant edge from `cexB` to `cexC`. -/
def cexE : Dependency := ⟨10, some 2, some 1, "", false, false, false⟩

/-- Available edge from `cexA` to `cexB`. -/
def cexAB : Dependency := ⟨11, some 1, some 0, "", true, true, true⟩

/-- Top checkable, no dependencies. -/
def cexC : Checkable := ⟨2, false, none, HostUp, StateTypeHard, [], []⟩

/-- Middle checkable with the failing edge. -/
def cexB : Checkable := ⟨1, false, none, HostUp, StateTypeHard, [cexE], []⟩

/-- Bottom checkable depending on `cexB`. -/
def cexA : Checkable := ⟨0, false, none, HostUp, StateTypeHard, [cexAB], []⟩

/-- World of the C4 configuration. -/
def cexW : World := ⟨[cexA, cexB, cexC]⟩

/-!  ### Linear chains for the depth-ceiling behaviour (C6)  -/

/-- Edge `i → i+1` (child `i`, parent `i+1`), always available,
non-redundant. -/
def chainDep (i : Nat) : Dependency := ⟨i, some (i + 1), some i, "", true, true, true⟩

/-- Checkable `i` of the chain `0 → 1 → ⋯ → n`. -/
def chainCheckable (n i : Nat) : Checkable :=
  ⟨i, false, none, HostUp, StateTypeHard,
    if i < n then [chainDep i] else [],
    if 0 < i then [chainDep (i - 1)] else []⟩

/-- The world of the chain with `n` edges. -/
def chainWorld (n : Nat) : World :=
  ⟨(List.range (n + 1)).map (chainCheckable n)⟩

/-!  ### The diamond configuration (C8)  -/

/-- Reverse edge recording `dB` as a child of `dA`. -/
def rAB : Dependency := ⟨30, some 0, some 1, "", true, true, true⟩

/-- Reverse edge recording `dD` as a child of `dA`. -/
def rAD : Dependency := ⟨31, some 0, some 3, "", true, true, true⟩

/-- Reverse edge recording `dC` as a child of `dB`. -/
def rBC : Dependency := ⟨32, some 1, some 2, "", true, true, true⟩

/-- Reverse edge recording `dC` as a child of `dD`. -/
def rDC : Dependency := ⟨33, some 3, some 2, "", true, true, true⟩

/-- Root of the diamond. -/
def dA : Checkable := ⟨0, false, none, HostUp, StateTypeHard, [], [rAB, rAD]⟩

/-- Left middle node. -/
def dB : Checkable := ⟨1, false, none, HostUp, StateTypeHard, [rAB], [rBC]⟩

/-- Bottom node, reached via both `dB` and `dD`. -/
def dC : Checkable := ⟨2, false, none, HostUp, StateTypeHard, [rBC, rDC], []⟩

/-- Right middle node. -/
def dD : Checkable := ⟨3, false, none, HostUp, StateTypeHard, [rAD], [rDC]⟩

/-- World of the diamond. -/
def wD : World := ⟨[dA, dB, dC, dD]⟩

/-!  ### The two-cycle configuration (C10)  -/

/-- Reverse edge recording `yB` as a child of `yA`. -/
def rAB2 : Dependency := ⟨40, some 0, some 1, "", true, true, true⟩

/-- Reverse edge recording `yA` as a child of `yB`. -/
def rBA2 : Dependency := ⟨41, some 1, some 0, "", true, true, true⟩

/-- Cycle node `A`. -/
def yA : Checkable := ⟨0, false, none, HostUp, StateTypeHard, [rBA2], [rAB2]⟩

/-- Cycle node `B`. -/
def yB : Checkable := ⟨1, false, none, HostUp, StateTypeHard, [rAB2], [rBA2]⟩

/-- World of the two-cycle. -/
def wCyc : World := ⟨[yA, yB]⟩

/-!  ### Lemmas about the `violated` map operations  -/

lemma any_key_iff (m : List (String × Option Dependency)) (k : String) :
    (m.any (fun kv => kv.1 == k)) = true ↔ ∃ v, (k, v) ∈ m := by
  rw [List.any_eq_true]
  constructor
  · rintro ⟨⟨k', v⟩, hmem, hk⟩
    simp only [beq_iff_eq] at hk
    subst hk
    exact ⟨v, hmem⟩
  · rintro ⟨v, hv⟩
    exact ⟨(k, v), hv, by simp⟩

lemma mem_mapInsert_elim {m : List (String × Option Dependency)} {k : String}
    {v : Option Dependency} {kv : String × Option Dependency}
    (h : kv ∈ mapInsert m k v) :
    kv ∈ m ∨ ((m.any (fun kv' => kv'.1 == k)) = false ∧ kv = (k, v)) := by
  unfold mapInsert at h
  split at h
  · exact Or.inl h
  · rename_i hno
    rcases List.mem_append.1 h with h' | h'
    · exact Or.inl h'
    · simp at h'
      exact Or.inr ⟨Bool.eq_false_iff.2 hno, by simp [h']⟩

lemma mem_mapInsert_of_mem {m : List (String × Option Dependency)} {k : String}
    {v : Option Dependency} {kv : String × Option Dependency}
    (h : kv ∈ m) : kv ∈ mapInsert m k v := by
  unfold mapInsert
  split
  · exact h
  · exact List.mem_append.2 (Or.inl h)

lemma mem_mapSet_elim {m : List (String × Option Dependency)} {k : String}
    {kv : String × Option Dependency} (h : kv ∈ mapSet m k) :
    (kv ∈ m ∧ kv.1 ≠ k) ∨ kv.2 = none := by
  unfold mapSet at h
  split at h
  · rcases List.mem_map.1 h with ⟨kv', hmem, heq⟩
    by_cases hk : kv'.1 = k
    · right
      simp [hk] at heq
      simp [← heq]
    · left
      simp [hk] at heq
      exact ⟨heq ▸ hmem, heq ▸ hk⟩
  · rename_i hno
    rcases List.mem_append.1 h with h' | h'
    · left
      refine ⟨h', ?_⟩
      intro hk
      rcases kv with ⟨k', v⟩
      simp only at hk
      exact hno ((any_key_iff m k).2 ⟨v, hk ▸ h'⟩)
    · right
      simp at h'
      simp [h']

lemma mem_mapSet_of_ne {m : List (String × Option Dependency)} {k : String}
    {kv : String × Option Dependency} (h : kv ∈ m) (hne : kv.1 ≠ k) :
    kv ∈ mapSet m k := by
  unfold mapSet
  split
  · exact List.mem_map.2 ⟨kv, h, by simp [hne]⟩
  · exact List.mem_append.2 (Or.inl h)

lemma mapSet_self_none {m : List (String × Option Dependency)} {k : String}
    {v : Option Dependency} (h : (k, v) ∈ mapSet m k) : v = none := by
  rcases mem_mapSet_elim h with ⟨_, hne⟩ | hnone
  · exact absurd rfl hne
  · exact hnone

lemma hasKey_mapSet_self (m : List (String × Option Dependency)) (k : String) :
    ((mapSet m k).any (fun kv => kv.1 == k)) = true := by
  unfold mapSet
  split
  · rename_i hyes
    rcases (any_key_iff m k).1 hyes with ⟨v, hv⟩
    exact (any_key_iff _ k).2 ⟨none, List.mem_map.2 ⟨(k, v), hv, by simp⟩⟩
  · exact (any_key_iff _ k).2 ⟨none, List.mem_append.2 (Or.inr (by simp))⟩

lemma hasKey_mapSet_mono {m : List (String × Option Dependency)} {k k' : String}
    (h : (m.any (fun kv => kv.1 == k')) = true) :
    ((mapSet m k).any (fun kv => kv.1 == k')) = true := by
  by_cases hk : k' = k
  · exact hk ▸ hasKey_mapSet_self m k
  · rcases (any_key_iff m k').1 h with ⟨v, hv⟩
    exact (any_key_iff _ k').2 ⟨v, mem_mapSet_of_ne hv (by simpa using hk)⟩

lemma hasKey_mapInsert_mono {m : List (String × Option Dependency)}
    {k k' : String} {v : Option Dependency}
    (h : (m.any (fun kv => kv.1 == k')) = true) :
    ((mapInsert m k v).any (fun kv => kv.1 == k')) = true := by
  rcases (any_key_iff m k').1 h with ⟨v', hv⟩
  exact (any_key_iff _ k').2 ⟨v', mem_mapInsert_of_mem hv⟩

lemma mem_mapSet_key {m : List (String × Option Dependency)} {k : String}
    {kv : String × Option Dependency} (h : kv ∈ mapSet m k) :
    (∃ v', (kv.1, v') ∈ m) ∨ kv.1 = k := by
  unfold mapSet at h
  split at h
  · rcases List.mem_map.1 h with ⟨kv', hmem, heq⟩
    have hfst : kv.1 = kv'.1 := by
      rw [← heq]
      split <;> rfl
    left
    refine ⟨kv'.2, ?_⟩
    rw [hfst]
    simpa using hmem
  · rcases List.mem_append.1 h with h' | h'
    · exact Or.inl ⟨kv.2, h'⟩
    · simp at h'
      exact Or.inr (by simp [h'])

lemma hasKey_mapSet_elim {m : List (String × Option Dependency)} {k k' : String}
    (h : ((mapSet m k).any (fun kv => kv.1 == k')) = true) :
    (m.any (fun kv => kv.1 == k')) = true ∨ k' = k := by
  rcases (any_key_iff _ k').1 h with ⟨v, hv⟩
  rcases mem_mapSet_key hv with ⟨v', hv'⟩ | hk
  · exact Or.inl ((any_key_iff m k').2 ⟨v', hv'⟩)
  · exact Or.inr hk

lemma hasKey_mapInsert_elim {m : List (String × Option Dependency)}
    {k k' : String} {v : Option Dependency}
    (h : ((mapInsert m k v).any (fun kv => kv.1 == k')) = true) :
    (m.any (fun kv => kv.1 == k')) = true ∨ k' = k := by
  rcases (any_key_iff _ k').1 h with ⟨v', hv⟩
  rcases mem_mapInsert_elim hv with h' | ⟨_, h'⟩
  · exact Or.inl ((any_key_iff m k').2 ⟨v', h'⟩)
  · exact Or.inr (by simpa using congrArg Prod.fst h')

lemma noEmptyKey_mapSet {m : List (String × Option Dependency)} {k : String}
    (hm : noEmptyKey m) (hk : k ≠ "") : noEmptyKey (mapSet m k) := by
  intro kv hkv
  rcases mem_mapSet_key hkv with ⟨v', hv'⟩ | h
  · exact hm (kv.1, v') hv'
  · exact h ▸ hk

lemma noEmptyKey_mapInsert {m : List (String × Option Dependency)} {k : String}
    {v : Option Dependency} (hm : noEmptyKey m) (hk : k ≠ "") :
    noEmptyKey (mapInsert m k v) := by
  intro kv hkv
  rcases mem_mapInsert_elim hkv with h | ⟨_, h⟩
  · exact hm _ h
  · rw [h]; exact hk

/-!  ### Basic lemmas about `checkDeps`  -/

/-- A successful direct-dependency evaluation clears `*failedDependency`. -/
lemma checkDeps_true_none (dt : DependencyType) :
    ∀ (deps : List Dependency) (m : List (String × Option Dependency)),
    (checkDeps dt deps m).fst = true → (checkDeps dt deps m).snd = none := by
  intro deps
  induction deps with
  | nil =>
    intro m h
    unfold checkDeps at *
    split at h
    · simp at h
    · rename_i hfind
      simp [checkDeps, hfind]
  | cons d rest ih =>
    intro m h
    by_cases ha : d.IsAvailable dt = true <;>
      by_cases hg : d.redundancyGroup = "" <;>
      simp only [checkDeps, ha, hg, if_true, if_false, if_pos, if_neg,
        not_false_iff] at h ⊢ <;>
      first
        | exact ih _ h
        | simp_all

/-- An unavailable non-redundant edge makes `checkDeps` fail with such an edge
as the violating one (the first such edge in iteration order). -/
lemma checkDeps_empty_unavail (dt : DependencyType) :
    ∀ (deps : List Dependency) (m : List (String × Option Dependency)),
    (∃ d ∈ deps, d.redundancyGroup = "" ∧ d.IsAvailable dt = false) →
    ∃ e, checkDeps dt deps m = (false, some e) ∧ e ∈ deps ∧
      e.redundancyGroup = "" ∧ e.IsAvailable dt = false := by
  intro deps
  induction deps with
  | nil => rintro m ⟨d, hd, _⟩; simp at hd
  | cons d rest ih =>
    rintro m ⟨x, hx, hxg, hxa⟩
    by_cases ha : d.IsAvailable dt = true
    · have hxr : x ∈ rest := by
        rcases List.mem_cons.1 hx with h | h
        · exact absurd (h ▸ ha) (by simp [hxa])
        · exact h
      by_cases hg : d.redundancyGroup = ""
      · rcases ih m ⟨x, hxr, hxg, hxa⟩ with ⟨e, he, hmem, hprops⟩
        exact ⟨e, by simpa [checkDeps, ha, hg] using he,
          List.mem_cons_of_mem _ hmem, hprops⟩
      · rcases ih (mapSet m d.redundancyGroup) ⟨x, hxr, hxg, hxa⟩ with
          ⟨e, he, hmem, hprops⟩
        exact ⟨e, by simpa [checkDeps, ha, hg] using he,
          List.mem_cons_of_mem _ hmem, hprops⟩
    · have ha' : d.IsAvailable dt = false := by simpa using ha
      by_cases hg : d.redundancyGroup = ""
      · exact ⟨d, by simp [checkDeps, ha', hg], List.mem_cons_self d rest, hg, ha'⟩
      · have hxr : x ∈ rest := by
          rcases List.mem_cons.1 hx with h | h
          · exact absurd (h ▸ hxg) (h ▸ hg)
          · exact h
        rcases ih (mapInsert m d.redundancyGroup (some d)) ⟨x, hxr, hxg, hxa⟩ with
          ⟨e, he, hmem, hprops⟩
        exact ⟨e, by simpa [checkDeps, ha', hg] using he,
          List.mem_cons_of_mem _ hmem, hprops⟩

lemma checkDeps_eq_finalMap (dt : DependencyType) :
    ∀ (deps : List Dependency) (m : List (String × Option Dependency)),
    (∀ d ∈ deps, d.redundancyGroup = "" → d.IsAvailable dt = true) →
    checkDeps dt deps m =
      match (finalMap dt deps m).find? (fun kv => kv.2.isSome) with
      | some kv => (false, kv.2)
      | none => (true, none) := by
  intro deps
  induction deps with
  | nil => intro m _; rfl
  | cons d rest ih =>
    intro m hnr
    have hrest : ∀ d' ∈ rest, d'.redundancyGroup = "" → d'.IsAvailable dt = true :=
      fun d' h => hnr d' (List.mem_cons_of_mem _ h)
    by_cases ha : d.IsAvailable dt = true
    · by_cases hg : d.redundancyGroup = ""
      · simp only [checkDeps, finalMap, ha, hg, if_true]
        exact ih m hrest
      · simp only [checkDeps, finalMap, ha, hg, if_true, if_neg hg]
        exact ih _ hrest
    · have hg : d.redundancyGroup ≠ "" := fun hg =>
        ha (hnr d (List.mem_cons_self d rest) hg)
      have ha' : d.IsAvailable dt = false := by simpa using ha
      simp only [checkDeps, finalMap, ha', if_neg hg, Bool.false_eq_true,
        if_false]
      exact ih _ hrest

/-- Once a key exists with only `none` values, every later value for it is
`none`: inserts never overwrite and assignments only write `none`. -/
lemma finalMap_none_stable (dt : DependencyType) :
    ∀ (deps : List Dependency) (m : List (String × Option Dependency))
      (k : String),
    (m.any (fun kv => kv.1 == k)) = true →
    (∀ v, (k, v) ∈ m → v = none) →
    ∀ v, (k, v) ∈ finalMap dt deps m → v = none := by
  intro deps
  induction deps with
  | nil => intro m k _ hnone v hv; exact hnone v hv
  | cons d rest ih =>
    intro m k hkey hnone v hv
    by_cases ha : d.IsAvailable dt = true <;>
      by_cases hg : d.redundancyGroup = "" <;>
      simp only [finalMap, ha, hg, if_true, if_neg, Bool.false_eq_true,
        if_false, reduceIte] at hv
    · exact ih m k hkey hnone v hv
    · refine ih _ k (hasKey_mapSet_mono hkey) ?_ v hv
      intro v' hv'
      rcases mem_mapSet_elim hv' with ⟨hm, _⟩ | h
      · exact hnone v' hm
      · exact h
    · exact ih m k hkey hnone v hv
    · refine ih _ k (hasKey_mapInsert_mono hkey) ?_ v hv
      intro v' hv'
      rcases mem_mapInsert_elim hv' with hm | ⟨hno, heq⟩
      · exact hnone v' hm
      · exfalso
        have : k = d.redundancyGroup := by
          simpa using congrArg Prod.fst heq
        rw [this] at hkey
        rw [hkey] at hno
        cases hno

/-- A failing entry survives processing edges none of which can satisfy its
group. -/
lemma finalMap_some_persist (dt : DependencyType) :
    ∀ (deps : List Dependency) (m : List (String × Option Dependency))
      (g : String) (x : Dependency),
    (g, some x) ∈ m →
    (∀ d ∈ deps, d.redundancyGroup = g → d.IsAvailable dt = false) →
    (g, some x) ∈ finalMap dt deps m := by
  intro deps
  induction deps with
  | nil => intro m g x hm _; exact hm
  | cons d rest ih =>
    intro m g x hm hun
    have hrest : ∀ d' ∈ rest, d'.redundancyGroup = g → d'.IsAvailable dt = false :=
      fun d' h => hun d' (List.mem_cons_of_mem _ h)
    by_cases ha : d.IsAvailable dt = true <;>
      by_cases hg : d.redundancyGroup = "" <;>
      simp only [finalMap, ha, hg, if_true, if_neg, Bool.false_eq_true,
        if_false, reduceIte]
    · exact ih m g x hm hrest
    · have hne : g ≠ d.redundancyGroup := by
        intro h
        rw [hun d (List.mem_cons_self d rest) h.symm] at ha
        cases ha
      exact ih _ g x (mem_mapSet_of_ne hm hne) hrest
    · exact ih m g x hm hrest
    · exact ih _ g x (mem_mapInsert_of_mem hm) hrest

/-- A redundancy group all of whose edges are unavailable leaves a failing
entry in the final map (when the group had no prior entry). -/
lemma finalMap_creates (dt : DependencyType) :
    ∀ (deps : List Dependency) (m : List (String × Option Dependency))
      (g : String),
    g ≠ "" →
    (m.any (fun kv => kv.1 == g)) = false →
    (∀ d ∈ deps, d.redundancyGroup = g → d.IsAvailable dt = false) →
    (∃ d ∈ deps, d.redundancyGroup = g) →
    ∃ x, (g, some x) ∈ finalMap dt deps m := by
  intro deps
  induction deps with
  | nil => rintro m g _ _ _ ⟨d, hd, _⟩; simp at hd
  | cons d rest ih =>
    rintro m g hge hno hun ⟨d₀, hd₀, hd₀g⟩
    have hrest : ∀ d' ∈ rest, d'.redundancyGroup = g → d'.IsAvailable dt = false :=
      fun d' h => hun d' (List.mem_cons_of_mem _ h)
    by_cases hdg : d.redundancyGroup = g
    · have ha' : d.IsAvailable dt = false := hun d (List.mem_cons_self d rest) hdg
      have hg : d.redundancyGroup ≠ "" := hdg ▸ hge
      simp only [finalMap, ha', Bool.false_eq_true, if_false, if_neg hg]
      refine ⟨d, finalMap_some_persist dt rest _ g d ?_ hrest⟩
      unfold mapInsert
      rw [hdg, hno]
      simp
    · have hd₀r : d₀ ∈ rest := by
        rcases List.mem_cons.1 hd₀ with h | h
        · exact absurd (h ▸ hd₀g) hdg
        · exact h
      by_cases ha : d.IsAvailable dt = true <;>
        by_cases hg : d.redundancyGroup = "" <;>
        simp only [finalMap, ha, hg, if_true, if_neg, Bool.false_eq_true,
          if_false, reduceIte]
      · exact ih m g hge hno hrest ⟨d₀, hd₀r, hd₀g⟩
      · refine ih _ g hge ?_ hrest ⟨d₀, hd₀r, hd₀g⟩
        by_contra hk
        rcases hasKey_mapSet_elim (Bool.not_eq_false _ ▸ hk) with h | h
        · rw [h] at hno; cases hno
        · exact hdg h.symm
      · exact ih m g hge hno hrest ⟨d₀, hd₀r, hd₀g⟩
      · refine ih _ g hge ?_ hrest ⟨d₀, hd₀r, hd₀g⟩
        by_contra hk
        rcases hasKey_mapInsert_elim (Bool.not_eq_false _ ▸ hk) with h | h
        · rw [h] at hno; cases hno
        · exact hdg h.symm

/-- Every failing entry of the final map comes from a group every edge of
which is unavailable, and (absent a prior entry) records one of its
unavailable edges. -/
lemma finalMap_entry (dt : DependencyType) :
    ∀ (deps : List Dependency) (m : List (String × Option Dependency))
      (g : String) (x : Dependency),
    noEmptyKey m →
    (g, some x) ∈ finalMap dt deps m →
    (∀ d ∈ deps, d.redundancyGroup = g → d.IsAvailable dt = false) ∧
      ((g, some x) ∈ m ∨
        (g ≠ "" ∧ x ∈ deps ∧ x.redundancyGroup = g ∧
          x.IsAvailable dt = false)) := by
  intro deps
  induction deps with
  | nil =>
    intro m g x _ h
    exact ⟨by simp, Or.inl h⟩
  | cons d rest ih =>
    intro m g x hm h
    by_cases ha : d.IsAvailable dt = true
    · by_cases hg : d.redundancyGroup = ""
      · simp only [finalMap, ha, hg, if_true] at h
        rcases ih m g x hm h with ⟨h1, h2⟩
        have hgne : g ≠ "" := by
          rcases h2 with h2 | h2
          · exact hm (g, some x) h2
          · exact h2.1
        refine ⟨?_, ?_⟩
        · intro d' hd' hgd'
          rcases List.mem_cons.1 hd' with hh | hh
          · exfalso
            rw [hh, hg] at hgd'
            exact hgne hgd'.symm
          · exact h1 d' hh hgd'
        · rcases h2 with h2 | h2
          · exact Or.inl h2
          · exact Or.inr ⟨h2.1, List.mem_cons_of_mem _ h2.2.1, h2.2.2⟩
      · simp only [finalMap, ha, hg, if_true, if_neg hg] at h
        have hne : g ≠ d.redundancyGroup := by
          intro hgd
          have hstable := finalMap_none_stable dt rest
            (mapSet m d.redundancyGroup) g
            (hgd ▸ hasKey_mapSet_self m d.redundancyGroup)
            (fun v hv => mapSet_self_none (hgd ▸ hv)) (some x) h
          cases hstable
        rcases ih _ g x (noEmptyKey_mapSet hm hg) h with ⟨h1, h2⟩
        refine ⟨?_, ?_⟩
        · intro d' hd' hgd'
          rcases List.mem_cons.1 hd' with hh | hh
          · exfalso
            rw [hh] at hgd'
            exact hne hgd'.symm
          · exact h1 d' hh hgd'
        · rcases h2 with h2 | h2
          · rcases mem_mapSet_elim h2 with ⟨hmm, _⟩ | hnone
            · exact Or.inl hmm
            · cases hnone
          · exact Or.inr ⟨h2.1, List.mem_cons_of_mem _ h2.2.1, h2.2.2⟩
    · have ha' : d.IsAvailable dt = false := by simpa using ha
      by_cases hg : d.redundancyGroup = ""
      · simp only [finalMap, ha', Bool.false_eq_true, if_false, hg,
          if_true] at h
        rcases ih m g x hm h with ⟨h1, h2⟩
        refine ⟨?_, ?_⟩
        · intro d' hd' hgd'
          rcases List.mem_cons.1 hd' with hh | hh
          · exact hh ▸ ha'
          · exact h1 d' hh hgd'
        · rcases h2 with h2 | h2
          · exact Or.inl h2
          · exact Or.inr ⟨h2.1, List.mem_cons_of_mem _ h2.2.1, h2.2.2⟩
      · simp only [finalMap, ha', Bool.false_eq_true, if_false,
          if_neg hg] at h
        rcases ih _ g x (noEmptyKey_mapInsert hm hg) h with ⟨h1, h2⟩
        refine ⟨?_, ?_⟩
        · intro d' hd' hgd'
          rcases List.mem_cons.1 hd' with hh | hh
          · exact hh ▸ ha'
          · exact h1 d' hh hgd'
        · rcases h2 with h2 | h2
          · rcases mem_mapInsert_elim h2 with hmm | ⟨_, heq⟩
            · exact Or.inl hmm
            · have hgeq : g = d.redundancyGroup := by
                simpa using congrArg Prod.fst heq
              have hxeq : x = d := by
                have := congrArg Prod.snd heq
                simpa using this
              exact Or.inr ⟨hgeq ▸ hg, hxeq ▸ List.mem_cons_self d rest,
                hgeq.symm ▸ (by rw [hxeq]), hxeq ▸ ha'⟩
          · exact Or.inr ⟨h2.1, List.mem_cons_of_mem _ h2.2.1, h2.2.2⟩

/-- Full specification of the direct-dependency evaluation as started by
`IsReachable` (empty `violated` map), assuming every non-redundant edge is
available: the verdict is "every occurring redundancy group has an available
edge", and on failure the violating edge is an unavailable member of a group
all of whose edges are unavailable. -/
lemma checkDeps_nil_spec (dt : DependencyType) (deps : List Dependency)
    (hnr : ∀ d ∈ deps, d.redundancyGroup = "" → d.IsAvailable dt = true) :
    ((checkDeps dt deps []).fst = true ↔
      ∀ g, g ≠ "" → (∃ d ∈ deps, d.redundancyGroup = g) →
        ∃ d ∈ deps, d.redundancyGroup = g ∧ d.IsAvailable dt = true) ∧
    (∀ e, (checkDeps dt deps []).snd = some e →
      e ∈ deps ∧ e.IsAvailable dt = false ∧ e.redundancyGroup ≠ "" ∧
        ∀ d ∈ deps, d.redundancyGroup = e.redundancyGroup →
          d.IsAvailable dt = false) ∧
    ((checkDeps dt deps []).fst = false →
      ∃ e, (checkDeps dt deps []).snd = some e) := by
  have heq := checkDeps_eq_finalMap dt deps [] hnr
  rcases hfind : (finalMap dt deps []).find? (fun kv => kv.2.isSome) with _ | kv
  · rw [hfind] at heq
    have heq2 : checkDeps dt deps [] = (true, none) := heq
    refine ⟨?_, ?_, ?_⟩
    · rw [heq2]
      refine ⟨fun _ => ?_, fun _ => rfl⟩
      intro g hg hocc
      by_contra hno
      push_neg at hno
      have hun : ∀ d ∈ deps, d.redundancyGroup = g → d.IsAvailable dt = false := by
        intro d hd hdg
        rcases hda : d.IsAvailable dt with _ | _
        · rfl
        · exact absurd hda (hno d hd hdg)
      rcases finalMap_creates dt deps [] g hg (by simp) hun hocc with ⟨x, hx⟩
      have := List.find?_eq_none.1 hfind _ hx
      simp at this
    · intro e he
      rw [heq2] at he
      simp at he
    · intro hf
      rw [heq2] at hf
      simp at hf
  · rw [hfind] at heq
    have hkvmem : kv ∈ finalMap dt deps [] := List.mem_of_find?_eq_some hfind
    have hkvsome : kv.2.isSome = true := by
      have := List.find?_some hfind
      simpa using this
    rcases hkv2 : kv.2 with _ | x
    · rw [hkv2] at hkvsome; cases hkvsome
    rcases kv with ⟨g, v⟩
    simp only at hkv2
    subst hkv2
    have heq2 : checkDeps dt deps [] = (false, some x) := heq
    have hentry := finalMap_entry dt deps [] g x (by intro kv h; simp at h)
      hkvmem
    rcases hentry with ⟨h1, h2⟩
    rcases h2 with h2 | ⟨hg, hxmem, hxg, hxa⟩
    · simp at h2
    refine ⟨?_, ?_, ?_⟩
    · rw [heq2]
      constructor
      · intro hft
        simp at hft
      · intro hall
        exfalso
        rcases hall g hg ⟨x, hxmem, hxg⟩ with ⟨d, hd, hdg, hda⟩
        rw [h1 d hd hdg] at hda
        cases hda
    · intro e he
      rw [heq2] at he
      simp only at he
      have hex : x = e := by simpa using he
      subst hex
      exact ⟨hxmem, hxa, hxg ▸ hg, hxg ▸ h1⟩
    · intro _
      rw [heq2]
      exact ⟨x, rfl⟩

/-!  ### Lemmas about `goParents` and `isReachableAux`  -/

/-- Defining equation of `isReachableAux` at positive fuel. -/
lemma isReachableAux_succ (w : World) (dt : DependencyType) (fuel : Nat)
    (c : Checkable) (co : Option Dependency) :
    isReachableAux w dt (fuel + 1) c co =
      match goParents (fun p co2 => isReachableAux w dt fuel p co2)
          (Checkable.getParents w c) co with
      | (true, _) =>
        if hostBlocked w dt c then (false, none)
        else checkDeps dt c.dependencies []
      | (false, co') => (false, co') := rfl

/-- The boolean verdict of the parents loop ignores the incoming
`*failedDependency` content. -/
lemma goParents_fst_content (f : Checkable → Option Dependency → Bool × Option Dependency)
    (hf : ∀ p co co', (f p co).fst = (f p co').fst) :
    ∀ (ps : List Checkable) (co co' : Option Dependency),
    (goParents f ps co).fst = (goParents f ps co').fst := by
  intro ps
  induction ps with
  | nil => intro co co'; rfl
  | cons p rest ih =>
    intro co co'
    have h := hf p co co'
    rcases h1 : f p co with ⟨b1, x1⟩
    rcases h2 : f p co' with ⟨b2, x2⟩
    rw [h1, h2] at h
    simp only at h
    subst h
    rcases b1 with _ | _
    · simp [goParents, h1, h2]
    · simp [goParents, h1, h2]
      exact ih x1 x2

/-- The boolean verdict of `IsReachable` ignores the incoming
`*failedDependency` content. -/
lemma isReachableAux_fst_content (w : World) (dt : DependencyType) :
    ∀ (fuel : Nat) (c : Checkable) (co co' : Option Dependency),
    (isReachableAux w dt fuel c co).fst = (isReachableAux w dt fuel c co').fst := by
  intro fuel
  induction fuel with
  | zero => intro c co co'; rfl
  | succ fuel ih =>
    intro c co co'
    rw [isReachableAux_succ, isReachableAux_succ]
    have h := goParents_fst_content _ (fun p a b => ih p a b)
      (Checkable.getParents w c) co co'
    rcases h1 : goParents (fun p co2 => isReachableAux w dt fuel p co2)
        (Checkable.getParents w c) co with ⟨b1, x1⟩
    rcases h2 : goParents (fun p co2 => isReachableAux w dt fuel p co2)
        (Checkable.getParents w c) co' with ⟨b2, x2⟩
    rw [h1, h2] at h
    simp only at h
    subst h
    rcases b1 with _ | _ <;> simp

/-- If every parent is reachable (at any incoming content), the parents loop
succeeds. -/
lemma goParents_all_true (f : Checkable → Option Dependency → Bool × Option Dependency)
    (ps : List Checkable) (hf : ∀ p ∈ ps, ∀ co, (f p co).fst = true) :
    ∀ co, (goParents f ps co).fst = true := by
  induction ps with
  | nil => intro co; rfl
  | cons p rest ih =>
    intro co
    rcases h1 : f p co with ⟨b, x⟩
    have hb : b = true := by
      have := hf p (List.mem_cons_self p rest) co
      rw [h1] at this
      exact this
    subst hb
    simp only [goParents, h1]
    exact ih (fun q hq co' => hf q (List.mem_cons_of_mem _ hq) co') x

/-- When all direct parents are reachable and the host gate does not fire,
`IsReachable` is exactly the direct-dependency evaluation on an empty
`violated` map. -/
lemma isReachableAux_direct (w : World) (dt : DependencyType) (fuel : Nat)
    (c : Checkable) (co : Option Dependency)
    (hpar : ∀ p ∈ Checkable.getParents w c,
      (isReachableAux w dt fuel p none).fst = true)
    (hhost : hostBlocked w dt c = false) :
    isReachableAux w dt (fuel + 1) c co = checkDeps dt c.dependencies [] := by
  rw [isReachableAux_succ]
  have hall : ∀ p ∈ Checkable.getParents w c, ∀ co2,
      (isReachableAux w dt fuel p co2).fst = true := by
    intro p hp co2
    rw [isReachableAux_fst_content w dt fuel p co2 none]
    exact hpar p hp
  have hgp := goParents_all_true _ (Checkable.getParents w c) hall co
  rcases h1 : goParents (fun p co2 => isReachableAux w dt fuel p co2)
      (Checkable.getParents w c) co with ⟨b, x⟩
  rw [h1] at hgp
  simp only at hgp
  subst hgp
  simp [hhost]

/-- A successful `IsReachable` call always leaves `*failedDependency` null. -/
lemma isReachableAux_true_none (w : World) (dt : DependencyType) :
    ∀ (fuel : Nat) (c : Checkable) (co : Option Dependency),
    (isReachableAux w dt fuel c co).fst = true →
    (isReachableAux w dt fuel c co).snd = none := by
  intro fuel c co h
  rcases fuel with _ | fuel
  · simp [isReachableAux] at h
  · rw [isReachableAux_succ] at h ⊢
    rcases h1 : goParents (fun p co2 => isReachableAux w dt fuel p co2)
        (Checkable.getParents w c) co with ⟨b, x⟩
    rw [h1] at h
    rcases b with _ | _
    · simp at h
    · simp only at h ⊢
      rcases hh : hostBlocked w dt c with _ | _
      · simp only [hh, Bool.false_eq_true, if_false] at h ⊢
        exact checkDeps_true_none dt c.dependencies [] h
      · simp [hh] at h

/-- Resolving an id yields a checkable with that id. -/
lemma World.find_id (w : World) (i : Nat) (x : Checkable)
    (h : w.find i = some x) : x.id = i := by
  have := List.find?_some h
  simpa using this

/-- Permuting the outgoing-edge snapshot permutes the parents view. -/
lemma getParents_perm (w : World) (c : Checkable) (deps' : List Dependency)
    (hperm : deps'.Perm c.dependencies) :
    (Checkable.getParents w { c with dependencies := deps' }).Perm
      (Checkable.getParents w c) := by
  simp only [Checkable.getParents]
  exact ((((hperm.filterMap (fun d => d.parent)).filter
      (fun p => decide (p ≠ c.id))).dedup).filterMap w.find)

/-- The function `IsReachable` reaches the direct-dependency evaluation when all parents
are reachable and the host gate does not fire. -/
lemma IsReachable_direct (w : World) (dt : DependencyType) (c : Checkable)
    (hpar : ∀ p ∈ Checkable.getParents w c,
      (isReachableAux w dt l_MaxDependencyRecursionLevel p none).fst = true)
    (hhost : hostBlocked w dt c = false) :
    c.IsReachable w dt = checkDeps dt c.dependencies [] :=
  isReachableAux_direct w dt l_MaxDependencyRecursionLevel c none hpar hhost

/-- C1: for a checkable whose direct parents are all reachable, which is not
blocked by the implicit host gate, and all of whose non-redundant
(empty-group-key) outgoing edges are available, `IsReachable` returns true iff
every redundancy group occurring among its outgoing edges contains an
available edge; when some group has all of its edges unavailable,
`IsReachable` returns false with an unavailable violating edge from such a
group; and the boolean verdict does not depend on the iteration order of the
outgoing edges. -/
theorem C1_redundancy_group_verdict (w : World) (dt : DependencyType)
    (c : Checkable)
    (hpar : ∀ p ∈ Checkable.getParents w c,
      (isReachableAux w dt l_MaxDependencyRecursionLevel p none).fst = true)
    (hhost : hostBlocked w dt c = false)
    (hnr : ∀ d ∈ c.dependencies, d.redundancyGroup = "" →
      d.IsAvailable dt = true) :
    ((c.IsReachable w dt).fst = true ↔
      ∀ g, groupOccurs c.dependencies g → groupSatisfied dt c.dependencies g) ∧
    ((∃ g, groupOccurs c.dependencies g ∧
        ¬ groupSatisfied dt c.dependencies g) →
      (c.IsReachable w dt).fst = false ∧
      ∃ e, (c.IsReachable w dt).snd = some e ∧ e ∈ c.dependencies ∧
        e.IsAvailable dt = false ∧ e.redundancyGroup ≠ "" ∧
        ∀ d ∈ c.dependencies, d.redundancyGroup = e.redundancyGroup →
          d.IsAvailable dt = false) ∧
    (∀ deps', deps'.Perm c.dependencies →
      (Checkable.IsReachable w dt { c with dependencies := deps' }).fst =
        (c.IsReachable w dt).fst) := by
  have hdir : c.IsReachable w dt = checkDeps dt c.dependencies [] :=
    IsReachable_direct w dt c hpar hhost
  obtain ⟨hiff, hsnd, hfalse⟩ := checkDeps_nil_spec dt c.dependencies hnr
  have hiff' : (c.IsReachable w dt).fst = true ↔
      ∀ g, groupOccurs c.dependencies g → groupSatisfied dt c.dependencies g := by
    rw [hdir, hiff]
    constructor
    · rintro h g ⟨hg, hocc⟩
      exact h g hg hocc
    · intro h g hg hocc
      exact h g ⟨hg, hocc⟩
  refine ⟨hiff', ?_, ?_⟩
  · rintro ⟨g, hocc, hnosat⟩
    have hf : (c.IsReachable w dt).fst = false := by
      rcases hb : (c.IsReachable w dt).fst with _ | _
      · rfl
      · exact absurd (hiff'.1 hb g hocc) hnosat
    refine ⟨hf, ?_⟩
    rcases hfalse (hdir ▸ hf) with ⟨e, he⟩
    rcases hsnd e (hdir ▸ (hdir ▸ he)) with ⟨hmem, hunav, hgne, hall⟩
    exact ⟨e, hdir ▸ he, hmem, hunav, hgne, hall⟩
  · intro deps' hperm
    have hpar' : ∀ p ∈ Checkable.getParents w { c with dependencies := deps' },
        (isReachableAux w dt l_MaxDependencyRecursionLevel p none).fst = true :=
      fun p hp => hpar p ((getParents_perm w c deps' hperm).mem_iff.1 hp)
    have hhost' : hostBlocked w dt { c with dependencies := deps' } = false :=
      hhost
    have hnr' : ∀ d ∈ deps', d.redundancyGroup = "" →
        d.IsAvailable dt = true :=
      fun d hd => hnr d (hperm.mem_iff.1 hd)
    have hdir' : Checkable.IsReachable w dt { c with dependencies := deps' } =
        checkDeps dt deps' [] :=
      IsReachable_direct w dt _ hpar' hhost'
    obtain ⟨hiff2, _, _⟩ := checkDeps_nil_spec dt deps' hnr'
    rw [hdir, hdir']
    rcases hb1 : (checkDeps dt deps' []).fst with _ | _ <;>
      rcases hb2 : (checkDeps dt c.dependencies []).fst with _ | _
    · rfl
    · exfalso
      have h2 := hiff.1 hb2
      have h1 : ∀ g, g ≠ "" → (∃ d ∈ deps', d.redundancyGroup = g) →
          ∃ d ∈ deps', d.redundancyGroup = g ∧ d.IsAvailable dt = true := by
        intro g hg hocc
        rcases hocc with ⟨d, hd, hdg⟩
        rcases h2 g hg ⟨d, hperm.mem_iff.1 hd, hdg⟩ with ⟨d', hd', hrest⟩
        exact ⟨d', hperm.mem_iff.2 hd', hrest⟩
      rw [hiff2.2 h1] at hb1
      cases hb1
    · exfalso
      have h1 := hiff2.1 hb1
      have h2 : ∀ g, g ≠ "" → (∃ d ∈ c.dependencies, d.redundancyGroup = g) →
          ∃ d ∈ c.dependencies, d.redundancyGroup = g ∧
            d.IsAvailable dt = true := by
        intro g hg hocc
        rcases hocc with ⟨d, hd, hdg⟩
        rcases h1 g hg ⟨d, hperm.mem_iff.2 hd, hdg⟩ with ⟨d', hd', hrest⟩
        exact ⟨d', hperm.mem_iff.1 hd', hrest⟩
      rw [hiff.2 h2] at hb2
      cases hb2
    · rfl

lemma solo_reach : Checkable.IsReachable soloW DependencyState soloC = (true, none) := by
  rw [IsReachable_direct soloW DependencyState soloC (by decide) (by decide)]
  rfl

/-!  ### Claim theorems  -/

/-- C2: with all parents reachable and no host gate, an unavailable
non-redundant (empty-group-key) outgoing edge makes `IsReachable` return
false, and the violating-edge output is such an unavailable non-redundant
edge. -/
theorem C2_nonredundant_unavailable (w : World) (dt : DependencyType)
    (c : Checkable)
    (hpar : ∀ p ∈ Checkable.getParents w c,
      (isReachableAux w dt l_MaxDependencyRecursionLevel p none).fst = true)
    (hhost : hostBlocked w dt c = false)
    (hbad : ∃ d ∈ c.dependencies, d.redundancyGroup = "" ∧
      d.IsAvailable dt = false) :
    (c.IsReachable w dt).fst = false ∧
    ∃ e, (c.IsReachable w dt).snd = some e ∧ e ∈ c.dependencies ∧
      e.redundancyGroup = "" ∧ e.IsAvailable dt = false := by
  have hdir := IsReachable_direct w dt c hpar hhost
  rcases checkDeps_empty_unavail dt c.dependencies [] hbad with
    ⟨e, he, hmem, hg, ha⟩
  rw [hdir, he]
  exact ⟨rfl, e, rfl, hmem, hg, ha⟩

/-- Witness for C2 at the concrete configuration `nrC`/`nrW`. -/
theorem C2_witness :
    (Checkable.IsReachable nrW DependencyState nrC).fst = false ∧
    ∃ e, (Checkable.IsReachable nrW DependencyState nrC).snd = some e ∧
      e ∈ nrC.dependencies ∧ e.redundancyGroup = "" ∧
      e.IsAvailable DependencyState = false :=
  C2_nonredundant_unavailable nrW DependencyState nrC (by decide) (by decide)
    ⟨nrD, by decide, by decide, by decide⟩

/-- C3: a service whose host is in a hard non-up state is unreachable for
state- and notification-relevant queries regardless of its configured
outgoing edges; when additionally all parents are reachable, the
violating-edge output is null. -/
theorem C3_host_gate (w : World) (dt : DependencyType) (c : Checkable)
    (h : Checkable) (hid : Nat)
    (hsvc : c.isService = true) (hhost : c.host = some hid)
    (hfind : w.find hid = some h) (hstate : h.state ≠ HostUp)
    (htype : h.stateType = StateTypeHard)
    (hdt : dt = DependencyState ∨ dt = DependencyNotification) :
    (c.IsReachable w dt).fst = false ∧
    ((∀ p ∈ Checkable.getParents w c,
        (isReachableAux w dt l_MaxDependencyRecursionLevel p none).fst = true) →
      c.IsReachable w dt = (false, none)) := by
  have hb : hostBlocked w dt c = true := by
    unfold hostBlocked
    rw [hsvc, hhost]
    simp only [Option.some_bind, hfind]
    rcases hdt with h' | h' <;> rw [h'] <;>
      simp [htype, bne_iff_ne, hstate]
  constructor
  · show (isReachableAux w dt (l_MaxDependencyRecursionLevel + 1) c none).fst = false
    rw [isReachableAux_succ]
    rcases hgp : goParents
        (fun p co2 => isReachableAux w dt l_MaxDependencyRecursionLevel p co2)
        (Checkable.getParents w c) none with ⟨b, x⟩
    rcases b with _ | _
    · rfl
    · simp [hb]
  · intro hpar
    show isReachableAux w dt (l_MaxDependencyRecursionLevel + 1) c none =
      (false, none)
    rw [isReachableAux_succ]
    have hall : ∀ p ∈ Checkable.getParents w c, ∀ co2,
        (isReachableAux w dt l_MaxDependencyRecursionLevel p co2).fst = true := by
      intro p hp co2
      rw [isReachableAux_fst_content w dt _ p co2 none]
      exact hpar p hp
    have hgp := goParents_all_true _ (Checkable.getParents w c) hall none
    rcases h1 : goParents
        (fun p co2 => isReachableAux w dt l_MaxDependencyRecursionLevel p co2)
        (Checkable.getParents w c) none with ⟨b, x⟩
    rw [h1] at hgp
    simp only at hgp
    subst hgp
    simp [hb]

/-- Witness for C3 at the concrete host-gate configuration. -/
theorem C3_witness :
    (Checkable.IsReachable gateW DependencyState gateS).fst = false ∧
    ((∀ p ∈ Checkable.getParents gateW gateS,
        (isReachableAux gateW DependencyState l_MaxDependencyRecursionLevel p
          none).fst = true) →
      Checkable.IsReachable gateW DependencyState gateS = (false, none)) :=
  C3_host_gate gateW DependencyState gateS gateH 5 (by decide) (by decide)
    (by decide) (by decide) (by decide) (Or.inl rfl)

/-- C5: any call whose recursion depth exceeds the ceiling of 256 reports
unreachable with a null violating edge. -/
theorem C5_depth_guard (w : World) (dt : DependencyType) (c : Checkable)
    (r : Nat) (hr : l_MaxDependencyRecursionLevel < r) :
    c.isReachableFrom w dt r = (false, none) := by
  unfold Checkable.isReachableFrom
  have h0 : l_MaxDependencyRecursionLevel + 1 - r = 0 := by omega
  rw [h0]
  rfl

/-- Witness for C5 at recursion depth 257. -/
theorem C5_witness :
    l_MaxDependencyRecursionLevel < 257 ∧
    Checkable.isReachableFrom soloW DependencyState soloC 257 = (false, none) :=
  ⟨by decide, C5_depth_guard soloW DependencyState soloC 257 (by decide)⟩

/-- C7: the parents and children views never contain the checkable itself,
even in the presence of self-referencing edges. -/
theorem C7_no_self (w : World) (c : Checkable) :
    (∀ x ∈ Checkable.getParents w c, x.id ≠ c.id) ∧
    (∀ x ∈ Checkable.getChildren w c, x.id ≠ c.id) := by
  constructor <;>
  · intro x hx
    simp only [Checkable.getParents, Checkable.getChildren] at hx
    rcases List.mem_filterMap.1 hx with ⟨i, hi, hfind⟩
    have hne : i ≠ c.id := by
      have := (List.mem_filter.1 (List.mem_dedup.1 hi)).2
      exact of_decide_eq_true this
    rw [World.find_id w i x hfind]
    exact hne

/-- C9: whenever a call of `IsReachable` returns true — at any recursion depth
and whatever violating edge the supplied `failedDependency` slot held on entry
— the slot holds null on return: a successful evaluation always clears any
previously stored violating edge (the write of lines 119–120). -/
theorem C9_true_clears (w : World) (dt : DependencyType) (fuel : Nat)
    (c : Checkable) (co : Option Dependency)
    (h : (isReachableAux w dt fuel c co).fst = true) :
    (isReachableAux w dt fuel c co).snd = none :=
  isReachableAux_true_none w dt fuel c co h

/-- Witness for C9 at the lone-checkable configuration, with a previously
stored violating edge in the slot on entry. -/
theorem C9_witness :
    (isReachableAux soloW DependencyState 1 soloC (some nrD)).fst = true ∧
    (isReachableAux soloW DependencyState 1 soloC (some nrD)).snd = none :=
  ⟨by decide, C9_true_clears soloW DependencyState 1 soloC (some nrD)
    (by decide)⟩

/-- Witness for C1 at the lone-checkable configuration. -/
theorem C1_witness :
    ((Checkable.IsReachable soloW DependencyState soloC).fst = true ↔
      ∀ g, groupOccurs soloC.dependencies g →
        groupSatisfied DependencyState soloC.dependencies g) ∧
    ((∃ g, groupOccurs soloC.dependencies g ∧
        ¬ groupSatisfied DependencyState soloC.dependencies g) →
      (Checkable.IsReachable soloW DependencyState soloC).fst = false ∧
      ∃ e, (Checkable.IsReachable soloW DependencyState soloC).snd = some e ∧
        e ∈ soloC.dependencies ∧ e.IsAvailable DependencyState = false ∧
        e.redundancyGroup ≠ "" ∧
        ∀ d ∈ soloC.dependencies, d.redundancyGroup = e.redundancyGroup →
          d.IsAvailable DependencyState = false) ∧
    (∀ deps', deps'.Perm soloC.dependencies →
      (Checkable.IsReachable soloW DependencyState
        { soloC with dependencies := deps' }).fst =
        (Checkable.IsReachable soloW DependencyState soloC).fst) :=
  C1_redundancy_group_verdict soloW DependencyState soloC (by decide) (by decide)
    (by decide)

/-- A checkable with no outgoing edges and no firing host gate is reachable at
any positive fuel, leaving a null violating edge. -/
lemma noDeps_reach (w : World) (dt : DependencyType) (c : Checkable)
    (hdeps : c.dependencies = []) (hhost : hostBlocked w dt c = false)
    (fuel : Nat) (co : Option Dependency) :
    isReachableAux w dt (fuel + 1) c co = (true, none) := by
  have hpar : ∀ p ∈ Checkable.getParents w c,
      (isReachableAux w dt fuel p none).fst = true := by
    intro p hp
    simp [Checkable.getParents, hdeps] at hp
  rw [isReachableAux_direct w dt fuel c co hpar hhost, hdeps]
  rfl

/-- Evaluation of `cexB` at any fuel at least 2. -/
lemma cexB_eval (fuel : Nat) (co : Option Dependency) :
    isReachableAux cexW DependencyState (fuel + 1 + 1) cexB co =
      (false, some cexE) := by
  have hps : Checkable.getParents cexW cexB = [cexC] := by decide
  have hpar : ∀ p ∈ Checkable.getParents cexW cexB,
      (isReachableAux cexW DependencyState (fuel + 1) p none).fst = true := by
    intro p hp
    rw [hps] at hp
    simp only [List.mem_singleton] at hp
    subst hp
    rw [noDeps_reach cexW DependencyState cexC rfl (by decide) fuel none]
  rw [isReachableAux_direct cexW DependencyState (fuel + 1) cexB co hpar
    (by decide)]
  rfl

/-- Evaluation of `cexB` at the fuel used for the parents of a top-level
call. -/
lemma cexB_at_max :
    isReachableAux cexW DependencyState l_MaxDependencyRecursionLevel cexB
      none = (false, some cexE) := by
  have h := cexB_eval 254 none
  norm_num at h
  exact h

/-- The parents loop of the top-level call on `cexA` fails with the edge
propagated from `cexB`. -/
lemma cex_goParents :
    goParents
      (fun p co2 => isReachableAux cexW DependencyState
        l_MaxDependencyRecursionLevel p co2)
      (Checkable.getParents cexW cexA) none = (false, some cexE) := by
  have hps : Checkable.getParents cexW cexA = [cexB] := by decide
  rw [hps]
  simp [goParents, cexB_at_max]

/-- Top-level evaluation of `cexA`. -/
lemma cexA_top :
    Checkable.IsReachable cexW DependencyState cexA = (false, some cexE) := by
  show isReachableAux cexW DependencyState (l_MaxDependencyRecursionLevel + 1)
    cexA none = _
  rw [isReachableAux_succ, cex_goParents]

/-- C4 counterexample: `cexA` is unreachable because the recursive call on its
direct parent `cexB` returned false, yet the top-level violating-edge output
is `some cexE` — the claim that it is null fails on this input. -/
theorem C4_counterexample :
    (isReachableAux cexW DependencyState l_MaxDependencyRecursionLevel cexB
      none).fst = false ∧
    cexB ∈ Checkable.getParents cexW cexA ∧
    Checkable.IsReachable cexW DependencyState cexA = (false, some cexE) ∧
    (Checkable.IsReachable cexW DependencyState cexA).snd ≠ none := by
  refine ⟨by rw [cexB_at_max], ?_, cexA_top, by rw [cexA_top]; simp⟩
  have hps : Checkable.getParents cexW cexA = [cexB] := by decide
  rw [hps]
  simp

/-- A failing parents loop pinpoints a failing parent call whose result it
propagates. -/
lemma goParents_false_spec
    (f : Checkable → Option Dependency → Bool × Option Dependency) :
    ∀ (ps : List Checkable) (co : Option Dependency),
    (goParents f ps co).fst = false →
    ∃ p ∈ ps, ∃ co₀, f p co₀ = (false, (goParents f ps co).snd) := by
  intro ps
  induction ps with
  | nil => intro co h; simp [goParents] at h
  | cons p rest ih =>
    intro co h
    rcases h1 : f p co with ⟨b, x⟩
    rcases b with _ | _
    · refine ⟨p, List.mem_cons_self p rest, co, ?_⟩
      rw [h1]
      simp [goParents, h1]
    · rw [goParents, h1] at h ⊢
      simp only at h ⊢
      rcases ih x h with ⟨q, hq, co₀, heq⟩
      exact ⟨q, List.mem_cons_of_mem _ hq, co₀, heq⟩

/-- C4 amended: when the parents loop of a top-level `IsReachable` call
fails, the call returns false and the violating-edge output is exactly what
the failing parent's recursive evaluation left in the slot (the parent's own
violating edge on a direct violation, null on a structural failure) — it is
not unconditionally null. -/
theorem C4_amended_propagation (w : World) (dt : DependencyType)
    (c : Checkable)
    (hgp : (goParents
      (fun p co2 => isReachableAux w dt l_MaxDependencyRecursionLevel p co2)
      (Checkable.getParents w c) none).fst = false) :
    c.IsReachable w dt =
      (false, (goParents
        (fun p co2 => isReachableAux w dt l_MaxDependencyRecursionLevel p co2)
        (Checkable.getParents w c) none).snd) ∧
    ∃ p ∈ Checkable.getParents w c, ∃ co₀,
      isReachableAux w dt l_MaxDependencyRecursionLevel p co₀ =
        (false, (goParents
          (fun p co2 => isReachableAux w dt l_MaxDependencyRecursionLevel p co2)
          (Checkable.getParents w c) none).snd) := by
  constructor
  · show isReachableAux w dt (l_MaxDependencyRecursionLevel + 1) c none = _
    rw [isReachableAux_succ]
    rcases h1 : goParents
        (fun p co2 => isReachableAux w dt l_MaxDependencyRecursionLevel p co2)
        (Checkable.getParents w c) none with ⟨b, x⟩
    rw [h1] at hgp
    simp only at hgp
    subst hgp
    simp
  · exact goParents_false_spec _ (Checkable.getParents w c) none hgp

/-- Witness for the amended C4 at the `cexW` configuration. -/
theorem C4_amended_witness :
    Checkable.IsReachable cexW DependencyState cexA =
      (false, (goParents
        (fun p co2 => isReachableAux cexW DependencyState
          l_MaxDependencyRecursionLevel p co2)
        (Checkable.getParents cexW cexA) none).snd) ∧
    ∃ p ∈ Checkable.getParents cexW cexA, ∃ co₀,
      isReachableAux cexW DependencyState l_MaxDependencyRecursionLevel p co₀ =
        (false, (goParents
          (fun p co2 => isReachableAux cexW DependencyState
            l_MaxDependencyRecursionLevel p co2)
          (Checkable.getParents cexW cexA) none).snd) :=
  C4_amended_propagation cexW DependencyState cexA (by rw [cex_goParents])

lemma chainDep_avail (i : Nat) (dt : DependencyType) :
    (chainDep i).IsAvailable dt = true := by
  cases dt <;> rfl

lemma chainDep_group (i : Nat) : (chainDep i).redundancyGroup = "" := rfl

lemma find?_range_eq (i n : Nat) (h : i < n) :
    (List.range n).find? (fun j => j == i) = some i := by
  induction n with
  | zero => omega
  | succ n ih =>
    rw [List.range_succ, List.find?_append]
    rcases Nat.lt_or_ge i n with hlt | hge
    · rw [ih hlt]
      rfl
    · have hin : i = n := by omega
      subst hin
      have hnone : (List.range i).find? (fun j => j == i) = none := by
        apply List.find?_eq_none.2
        intro j hj
        simp only [List.mem_range] at hj
        have hne : j ≠ i := by omega
        simp [hne]
      rw [hnone]
      simp

lemma chain_find (n i : Nat) (h : i ≤ n) :
    (chainWorld n).find i = some (chainCheckable n i) := by
  unfold chainWorld World.find
  rw [List.find?_map]
  have hcomp : ((fun c : Checkable => c.id == i) ∘ chainCheckable n) =
      fun j => j == i := rfl
  rw [hcomp, find?_range_eq i (n + 1) (by omega)]
  rfl

lemma chain_parents (n i : Nat) (hi : i < n) :
    Checkable.getParents (chainWorld n) (chainCheckable n i) =
      [chainCheckable n (i + 1)] := by
  unfold Checkable.getParents
  have hdeps : (chainCheckable n i).dependencies = [chainDep i] := by
    simp [chainCheckable, hi]
  have hid : (chainCheckable n i).id = i := rfl
  rw [hdeps, hid]
  have h1 : ([chainDep i].filterMap (fun d => d.parent)) = [i + 1] := rfl
  rw [h1]
  have h2 : ([i + 1].filter (fun p => p ≠ i)) = [i + 1] := by
    simp [Nat.succ_ne_self]
  rw [h2]
  have h3 : ([i + 1] : List Nat).dedup = [i + 1] := by simp
  rw [h3]
  simp [List.filterMap, chain_find n (i + 1) (by omega)]

lemma chain_host (n i : Nat) (dt : DependencyType) :
    hostBlocked (chainWorld n) dt (chainCheckable n i) = false := rfl

/-- Reachability along the chain: checkable `i` is reachable exactly when the
remaining chain length `n - i` fits in the remaining fuel; otherwise the depth
guard fires and the incoming content is propagated. -/
lemma chain_reach (n : Nat) (dt : DependencyType) :
    ∀ (fuel i : Nat) (co : Option Dependency), i ≤ n →
    isReachableAux (chainWorld n) dt fuel (chainCheckable n i) co =
      if n - i < fuel then (true, none) else (false, co) := by
  intro fuel
  induction fuel with
  | zero =>
    intro i co hi
    rw [if_neg (by omega)]
    rfl
  | succ fuel ih =>
    intro i co hi
    by_cases hin : i < n
    · rw [isReachableAux_succ, chain_parents n i hin]
      have hrec := ih (i + 1) co (by omega)
      by_cases hf : n - (i + 1) < fuel
      · rw [if_pos hf] at hrec
        simp only [goParents, hrec]
        rw [if_pos (by omega : n - i < fuel + 1)]
        have hdeps : (chainCheckable n i).dependencies = [chainDep i] := by
          simp [chainCheckable, hin]
        simp [chain_host, hdeps, checkDeps, chainDep_avail, chainDep_group]
      · rw [if_neg hf] at hrec
        simp only [goParents, hrec]
        rw [if_neg (by omega : ¬ (n - i < fuel + 1))]
    · have hieq : i = n := by omega
      subst hieq
      have hdeps : (chainCheckable i i).dependencies = [] := by
        simp [chainCheckable]
      rw [noDeps_reach _ dt _ hdeps (chain_host i i dt) fuel co,
        if_pos (by omega : i - i < fuel + 1)]

/-- C6: on the linear chain with 257 edges the bottom checkable is reported
unreachable (the depth guard fires before the top is reached) with a null
violating edge, while on the chain with exactly 256 edges the evaluation
completes normally and reports reachable. -/
theorem C6_depth_ceiling (dt : DependencyType) :
    Checkable.IsReachable (chainWorld 257) dt (chainCheckable 257 0) =
      (false, none) ∧
    Checkable.IsReachable (chainWorld 256) dt (chainCheckable 256 0) =
      (true, none) := by
  constructor
  · show isReachableAux (chainWorld 257) dt
      (l_MaxDependencyRecursionLevel + 1) (chainCheckable 257 0) none = _
    rw [chain_reach 257 dt (l_MaxDependencyRecursionLevel + 1) 0 none
      (by omega)]
    rw [if_neg (by decide)]
  · show isReachableAux (chainWorld 256) dt
      (l_MaxDependencyRecursionLevel + 1) (chainCheckable 256 0) none = _
    rw [chain_reach 256 dt (l_MaxDependencyRecursionLevel + 1) 0 none
      (by omega)]
    rw [if_pos (by decide)]

/-!  ### Lemmas about `getAllChildrenInternal`  -/

/-- Defining equation of `getAllChildrenInternal` at positive fuel. -/
lemma gaci_succ (w : World) (fuel level : Nat) (children : Finset Checkable) :
    getAllChildrenInternal w (fuel + 1) level children =
      children ∪ children.biUnion (fun ck =>
        (if (ck.getChildrenF w).Nonempty then
            getAllChildrenInternal w fuel (level + 1) (ck.getChildrenF w)
          else ∅) ∪
        (if level ≠ 0 then {ck} else ∅)) := rfl

/-- The traversal only grows the incoming set. -/
lemma subset_gaci (w : World) (fuel level : Nat) (S : Finset Checkable) :
    S ⊆ getAllChildrenInternal w fuel level S := by
  rcases fuel with _ | fuel
  · exact Finset.Subset.refl S
  · rw [gaci_succ]
    exact Finset.subset_union_left

/-- At a non-initiator level, a set of childless checkables is returned
unchanged. -/
lemma gaci_leaf (w : World) (S : Finset Checkable)
    (hS : ∀ x ∈ S, Checkable.getChildrenF w x = ∅) (level : Nat)
    (hl : level ≠ 0) (fuel : Nat) :
    getAllChildrenInternal w fuel level S = S := by
  rcases fuel with _ | fuel
  · rfl
  · rw [gaci_succ]
    ext a
    simp only [Finset.mem_union, Finset.mem_biUnion]
    constructor
    · rintro (h | ⟨b, hb, hcontrib⟩)
      · exact h
      · rw [hS b hb] at hcontrib
        simp [hl] at hcontrib
        exact hcontrib ▸ hb
    · intro h
      exact Or.inl h

/-- C8: in the diamond `A → B → C`, `A → D → C` (children direction),
`GetAllChildren(A)` is exactly `{B, C, D}` (no duplicate for the shared
descendant `C`), and `GetAllChildrenCount(A)` is 3, which is by construction
the cardinality of `GetAllChildren(A)`. -/
theorem C8_diamond :
    Checkable.GetAllChildren wD dA = {dB, dC, dD} ∧
    Checkable.GetAllChildrenCount wD dA = 3 ∧
    Checkable.GetAllChildrenCount wD dA =
      (Checkable.GetAllChildren wD dA).card := by
  have hA : Checkable.getChildrenF wD dA = {dB, dD} := by decide
  have hB : Checkable.getChildrenF wD dB = {dC} := by decide
  have hDd : Checkable.getChildrenF wD dD = {dC} := by decide
  have hC : Checkable.getChildrenF wD dC = ∅ := by decide
  have hgB : getAllChildrenInternal wD l_MaxDependencyRecursionLevel 1 {dC} =
      {dC} := by
    refine gaci_leaf wD {dC} ?_ 1 (by decide) l_MaxDependencyRecursionLevel
    intro x hx
    rw [Finset.mem_singleton] at hx
    rw [hx, hC]
  have hmain : Checkable.GetAllChildren wD dA = {dB, dC, dD} := by
    unfold Checkable.GetAllChildren
    rw [hA, gaci_succ]
    rw [Finset.biUnion_insert, Finset.singleton_biUnion]
    rw [hB, hDd]
    simp only [Nat.zero_add]
    rw [hgB]
    simp only [Finset.singleton_nonempty, if_true, ne_eq,
      not_true_eq_false, if_false, Finset.union_empty]
    ext a
    simp only [Finset.mem_union, Finset.mem_insert, Finset.mem_singleton]
    tauto
  refine ⟨hmain, ?_, rfl⟩
  show (Checkable.GetAllChildren wD dA).card = 3
  rw [hmain]
  decide

/-- The traversal set only grows, so members of the incoming set are members
of the result at any fuel. -/
lemma mem_gaci_self (w : World) (fuel level : Nat) (S : Finset Checkable)
    (a : Checkable) (ha : a ∈ S) :
    a ∈ getAllChildrenInternal w fuel level S := by
  rcases fuel with _ | fuel
  · exact ha
  · rw [gaci_succ]
    exact Finset.mem_union_left _ ha

lemma cycA_children : Checkable.getChildrenF wCyc yA = {yB} := by decide

lemma cycB_children : Checkable.getChildrenF wCyc yB = {yA} := by decide

/-- In the two-cycle, `yA` enters the descendant set of `yA` at any positive
fuel: the traversal re-encounters it as a child of `yB` at level 1, where the
self-exclusion of `GetChildren` does not apply. -/
lemma cyc_key (fuel : Nat) :
    yA ∈ getAllChildrenInternal wCyc (fuel + 1) 0
      (Checkable.getChildrenF wCyc yA) := by
  rw [cycA_children, gaci_succ, Finset.singleton_biUnion, Finset.mem_union,
    Finset.mem_union]
  refine Or.inr (Or.inl ?_)
  rw [cycB_children, if_pos (Finset.singleton_nonempty yA)]
  exact mem_gaci_self wCyc fuel (0 + 1) {yA} yA (Finset.mem_singleton_self yA)

lemma gac_unfold : Checkable.GetAllChildren wCyc yA =
    getAllChildrenInternal wCyc (l_MaxDependencyRecursionLevel + 1) 0
      (Checkable.getChildrenF wCyc yA) := rfl

attribute [irreducible] getAllChildrenInternal Checkable.GetAllChildren

/-- C10: in the two-cycle `A ↔ B`, the transitive descendant set of `A`
contains `A` itself, although the direct-children view excludes it. -/
theorem C10_cycle_contains_self :
    yA ∈ Checkable.GetAllChildren wCyc yA ∧
    yA ∉ Checkable.getChildrenF wCyc yA := by
  constructor
  · rw [gac_unfold]
    exact cyc_key l_MaxDependencyRecursionLevel
  · decide

